import Mathlib

/-!
Shallow embedding of the 1FPGA catalog build pipeline (build/build.js and the
per-system database build script) together with proofs about the behaviour of
its version aggregation, integrity verification, tree-transformer sandbox
check, and relational ingestion logic.

JavaScript values are modelled as follows: a possibly-`undefined` string is an
`Option String`; the result of the unary-plus numeric coercion is an
`Option Int` where `none` plays the role of `NaN` (the version strings used by
the catalog are decimal date numerals such as "20230101"); fallible operations
return `Except String`; the filesystem is a partial map from paths to byte
lists; the cryptographic primitives (sha256, ed25519 verification) are taken
as oracle parameters since their internals are irrelevant to the claims.
-/

/-- Test for a decimal digit character. -/
def digOk (c : Char) : Bool :=
  48 ≤ c.toNat && c.toNat ≤ 57

/-- Value of a string of decimal digits, accumulator style; `none` when a
non-digit appears. -/
def decDigits : List Char → Nat → Option Nat
  | [], acc => some acc
  | c :: cs, acc => if digOk c then decDigits cs (acc * 10 + (c.toNat - 48)) else none

/-- Numeric coercion of a version string, modelling the JS unary plus `+a` as
used by `compareVersions`. Catalog versions are decimal integer numerals with
an optional sign; any other string coerces to NaN, modelled as `none` (the
remaining JS numeric forms — leading whitespace, hex, floats, exponents —
do not occur as catalog versions and are likewise mapped to `none`; the empty
string coerces to 0 as in JS). -/
def jsNum (s : String) : Option Int :=
  match s.data with
  | '-' :: c :: cs => (decDigits (c :: cs) 0).map (fun n => -(n : Int))
  | cs => (decDigits cs 0).map (fun n => (n : Int))

/-- Embeds `compareVersions(a, b)` from build.js: numeric subtraction
`+a - +b` of the two version strings. A NaN result (either side non-numeric)
is modelled as `none`. -/
def compareVersions (a b : String) : Option Int :=
  match jsNum a, jsNum b with
  | some x, some y => some (x - y)
  | _, _ => none

/-- The test `compareVersions(a, b) > 0` exactly as `maxVersion` uses it.
In JS a NaN comparison is false, hence `none` yields `false`. -/
def compareGt (a b : String) : Bool :=
  match compareVersions a b with
  | some d => decide (0 < d)
  | none => false

/-- One reduction step of `maxVersion`: `compareVersions(a, b) > 0 ? a : b`. -/
def maxV2 (a b : String) : String :=
  if compareGt a b then a else b

/-- Embeds `maxVersion(versions)` from build.js:
`versions.reduce((a, b) => compareVersions(a, b) > 0 ? a : b)`.
JS `reduce` throws a TypeError on an empty array, modelled as `none`. -/
def maxVersion : List String → Option String
  | [] => none
  | v :: vs => some (vs.foldl maxV2 v)

theorem maxVersion_pair (a b : String) : maxVersion [a, b] = some (maxV2 a b) := rfl

/-- Numeric coercion of a possibly-`undefined` JS string value
(`+undefined` is NaN). -/
def jsNumU : Option String → Option Int
  | none => none
  | some s => jsNum s

/-- The test `compareVersions(a, b) > 0` where either side may be
`undefined`, as happens in `buildSystems` where `maxVersion` is applied to
`[s.version, sData.version, "0"]` with possibly missing properties. -/
def compareGtU (a b : Option String) : Bool :=
  match jsNumU a, jsNumU b with
  | some x, some y => decide (y < x)
  | _, _ => false

/-- One reduction step of `maxVersion` on possibly-`undefined` elements. -/
def maxV2U (a b : Option String) : Option String :=
  if compareGtU a b then a else b

theorem compareGtU_some (a b : String) :
    compareGtU (some a) (some b) = compareGt a b := by
  unfold compareGtU compareGt compareVersions jsNumU
  cases ha : jsNum a <;> cases hb : jsNum b <;> simp [ha, hb, Int.sub_pos]

/-- Denotation of a version string as an integer, defaulting to 0; only used
in theorem statements under a hypothesis that the string is numeric. -/
def valD (s : String) : Int :=
  (jsNum s).getD 0

/-- The root `catalog.json` date stamp from the bottom of build.js:
the template string `y + (m < 10 ? '0' : '') + m + (day < 10 ? '0' : '') + day`. -/
def formatCatalogDate (y m day : Nat) : String :=
  toString y ++ (if m < 10 then "0" else "") ++ toString m
    ++ (if day < 10 then "0" else "") ++ toString day

/-- A two-digit zero-padded decimal rendering, written from the spec's words
"YYYYMMDD (zero-padded month and day)" for comparison with the code's
template string. -/
def zeroPad2 (n : Nat) : String :=
  if n < 10 then "0" ++ toString n else toString n

/-- Date formatted as the spec describes the root catalog version:
year, then zero-padded month, then zero-padded day. -/
def specDateYYYYMMDD (y m day : Nat) : String :=
  toString y ++ zeroPad2 m ++ zeroPad2 day

/-- A `url`/`version` pointer record in catalog.json
(`catalog.cores`, `catalog.systems`, `catalog.releases`). -/
structure CatalogPtr where
  url : String := ""
  version : Option String := none
deriving DecidableEq, Repr

/-- The root catalog.json document. -/
structure Catalog where
  version : Option String := none
  cores : CatalogPtr := {}
  systems : CatalogPtr := {}
  releases : CatalogPtr := {}
deriving DecidableEq, Repr

/-- The final stamping step at the bottom of build.js: after the three
propagation passes, `catalog.version` is overwritten with the formatted
current build date. -/
def stampCatalogVersion (c : Catalog) (y m day : Nat) : Catalog :=
  { c with version := some (formatCatalogDate y m day) }

/-- A file record inside a release (`{url, size, sha256[, signature]}`).
The `size`, `sha256` and `signature` fields coming from the source tree may
be absent; the build overwrites them. -/
structure ReleaseFile where
  url : String := ""
  size : Option Int := none
  sha256 : Option String := none
  signature : Option String := none
deriving DecidableEq, Repr

/-- One version entry `v` of a release channel: `{version, tags?, files}`.
The entry-level `tags` array is present in the data model but, notably, is
never read by `buildReleases` (which tests `r.tags` on the channel value
instead of `v.tags`). -/
structure ReleaseEntry where
  version : String
  tags : List String := []
  files : List ReleaseFile := []
deriving DecidableEq, Repr

/-- A release channel value `r` as `buildReleases` sees it after
`JSON.parse`: iterating `for (const v of r)` requires it to be an array of
entries. The code also reads the properties `r.tags` and `r.version` on
that same value; an array produced by `JSON.parse` of a JSON array carries
neither property, so for parsed input both fields are `none`. They are kept
in the model so the code's property reads can be embedded verbatim. -/
structure ReleaseChannel where
  entries : List ReleaseEntry
  tags : Option (List String) := none
  version : Option String := none
deriving DecidableEq, Repr

/-- Body of the per-channel loop of `buildReleases` acting on the
`(latestReleasesVersion, latestTagVersion)` accumulator: for each entry `v`
of the channel `r`, `latestReleasesVersion = maxVersion([latestReleasesVersion,
v.version])`, and `if ((r.tags ?? []).includes("latest"))
latestTagVersion = r.version`. -/
def releasesChannelLoop (r : ReleaseChannel) (acc : String × Option String) :
    String × Option String :=
  r.entries.foldl
    (fun acc v =>
      (maxV2 acc.1 v.version,
       if (r.tags.getD []).contains "latest" then r.version else acc.2))
    acc

/-- The version stamped on `catalog.releases` by `buildReleases`:
seed `catalog.releases.version ?? "0"`, run the channel loops, then
`catalog.releases.version = latestTagVersion ??
maxVersion([catalog.releases.version, latestReleasesVersion])`. When the
original `catalog.releases.version` is `undefined` the final `maxVersion`
reduce compares it via NaN, which is never `> 0`, and so yields the other
element. -/
def buildReleasesVersion (prev : Option String) (channels : List ReleaseChannel) :
    String :=
  let acc := channels.foldl (fun acc r => releasesChannelLoop r acc) (prev.getD "0", none)
  match acc.2 with
  | some v => v
  | none =>
    match prev with
    | some p => maxV2 p acc.1
    | none => acc.1

/-- The version stamped on one core entry by `buildCores`: seed
`c.version ?? "0"`, then for each release `r` of the core's document,
`latestVersion = maxVersion([latestVersion, r.version])`. -/
def buildCoreEntryVersion (cVer : Option String) (releaseVersions : List String) :
    String :=
  releaseVersions.foldl maxV2 (cVer.getD "0")

/-- The version stamped on `catalog.cores` by `buildCores`: seed
`catalog.cores.version ?? "0"`, fold in each stamped core version, then
`catalog.cores.version = maxVersion([catalog.cores.version, latestCoresVersion])`
(again an `undefined` first element loses every NaN comparison). -/
def buildCoresCatalogVersion (prev : Option String) (coreVersions : List String) :
    String :=
  let latest := coreVersions.foldl maxV2 (prev.getD "0")
  match prev with
  | some p => maxV2 p latest
  | none => latest

/-- The version stamped on one system entry (both `s.version` and
`sData.version`) by `buildSystems`:
`latestVersion = maxVersion([s.version, sData.version, "0"])` where either
property may be `undefined`, then if the optional `gamesDb` artifact is
present and `compareVersions(sData.gamesDb.version, latestVersion) > 0`, the
gamesDb version wins. The `gamesDb` argument is `none` when the system
document has no gamesDb, and `some gv` with `gv` its (possibly absent)
`version` property otherwise. -/
def buildSystemEntryVersion (sVer docVer : Option String)
    (gamesDb : Option (Option String)) : Option String :=
  let latest := maxV2U (maxV2U sVer docVer) (some "0")
  match gamesDb with
  | none => latest
  | some gv => if compareGtU gv latest then gv else latest

/-- The version stamped on `catalog.systems` by `buildSystems`: seed
`systemsData.version ?? "0"` (the systems document itself; a well-formed
systems document is a map of system entries and carries no top-level
`version` key, since `Object.entries` would otherwise iterate that key as a
system and fail on its missing `url`), fold in each stamped system version,
then `catalog.systems.version = maxVersion([catalog.systems.version,
latestSystemsVersion])`. -/
def buildSystemsCatalogVersion (prev : Option String) (docVer : Option String)
    (systemVersions : List (Option String)) : Option String :=
  let latest := systemVersions.foldl maxV2U (some (docVer.getD "0"))
  maxV2U prev latest

/-- The test `compareVersions(a, b) < 0`, the sign observation used in the
spec's antisymmetry property. -/
def compareLt (a b : String) : Bool :=
  match compareVersions a b with
  | some d => decide (d < 0)
  | none => false

theorem jsNum_foldl_maxV2 (l : List String) :
    ∀ (a : String) (x : Int), jsNum a = some x →
      (∀ v ∈ l, (jsNum v).isSome) →
      jsNum (l.foldl maxV2 a) = some ((l.map valD).foldl max x) := by
  induction l with
  | nil => intro a x hx _; simpa using hx
  | cons v t ih =>
    intro a x hx hall
    obtain ⟨y, hy⟩ := Option.isSome_iff_exists.mp (hall v (by simp))
    have hval : valD v = y := by simp [valD, hy]
    have hgt : compareGt a v = decide (y < x) := by
      simp [compareGt, compareVersions, hx, hy, Int.sub_pos]
    have hrest : ∀ u ∈ t, (jsNum u).isSome := fun u hu => hall u (by simp [hu])
    by_cases hlt : y < x
    · have hm : maxV2 a v = a := by simp [maxV2, hgt, hlt]
      simp only [List.foldl_cons, List.map_cons, hm, hval]
      rw [ih a x hx hrest, max_eq_left hlt.le]
    · have hm : maxV2 a v = v := by simp [maxV2, hgt, hlt]
      simp only [List.foldl_cons, List.map_cons, hm, hval]
      rw [ih v y hy hrest, max_eq_right (not_lt.mp hlt)]

theorem le_foldl_max (L : List Int) : ∀ a : Int, a ≤ L.foldl max a := by
  induction L with
  | nil => simp
  | cons x t ih => intro a; exact le_trans (le_max_left a x) (ih (max a x))

theorem mem_le_foldl_max (L : List Int) : ∀ x ∈ L, ∀ a, x ≤ L.foldl max a := by
  induction L with
  | nil => simp
  | cons y t ih =>
    intro x hx a
    rcases List.mem_cons.mp hx with h | h
    · subst h; exact le_trans (le_max_right a x) (le_foldl_max t _)
    · exact ih x h _

theorem foldl_max_comm_seed (L : List Int) :
    ∀ a b : Int, L.foldl max (max a b) = max a (L.foldl max b) := by
  induction L with
  | nil => intro a b; rfl
  | cons x t ih =>
    intro a b
    simp only [List.foldl_cons]
    rw [max_assoc]
    exact ih a (max b x)

theorem perm_foldl_max {L L' : List Int} (h : L.Perm L') :
    ∀ a, L.foldl max a = L'.foldl max a := by
  induction h with
  | nil => intro _; rfl
  | cons x _ ih => intro a; simp only [List.foldl_cons]; exact ih _
  | swap x y l => intro a; simp only [List.foldl_cons]; rw [sup_right_comm]
  | trans _ _ ih₁ ih₂ => intro a; rw [ih₁ a, ih₂ a]

theorem reduce_max_perm {L L' : List Int} (h : L.Perm L')
    (a : Int) (t : List Int) (b : Int) (t' : List Int)
    (hL : L = a :: t) (hL' : L' = b :: t') :
    t.foldl max a = t'.foldl max b := by
  subst hL hL'
  have hb : b ∈ a :: t := h.mem_iff.mpr (List.mem_cons_self b t')
  have ha : a ∈ b :: t' := h.mem_iff.mp (List.mem_cons_self a t)
  have hp := perm_foldl_max h (max b a)
  have e1 : (a :: t).foldl max (max b a) = max b ((a :: t).foldl max a) :=
    foldl_max_comm_seed _ b a
  have e2 : (b :: t').foldl max (max b a) = max a ((b :: t').foldl max b) := by
    rw [max_comm b a]; exact foldl_max_comm_seed _ a b
  rw [e1, e2] at hp
  rw [max_eq_right (mem_le_foldl_max _ b hb a),
      max_eq_right (mem_le_foldl_max _ a ha b)] at hp
  have habs : (a :: t).foldl max a = t.foldl max a := by
    simp [List.foldl_cons, max_self]
  have habs' : (b :: t').foldl max b = t'.foldl max b := by
    simp [List.foldl_cons, max_self]
  rw [habs, habs'] at hp
  exact hp

/-- C1 (code_bug evaluation): a release channel parsed from JSON (so the
channel array itself has no `tags`/`version` property) holding an entry
versioned "20230101" tagged "latest" and an entry versioned "20230601"
yields the numeric maximum "20230601" as the stamped `catalog.releases`
version, not the "latest"-pinned "20230101" the spec requires: the code
tests `r.tags`/`r.version` on the channel array inside the per-entry loop
instead of `v.tags`/`v.version` on the entry, so the pin never fires. -/
theorem buildReleases_latest_tag_ignored :
    buildReleasesVersion (some "0")
        [{ entries := [{ version := "20230101", tags := ["latest"] },
                       { version := "20230601" }] }]
      = "20230601" ∧
    ("20230601" : String) ≠ "20230101" := by
  constructor
  · rfl
  · decide

/-- C5: after the three propagation passes, the root catalog version is
stamped with the build date rendered as the year followed by the
zero-padded month and zero-padded day, and the stamped value is independent
of the catalog's children (their versions do not enter the computation). -/
theorem catalog_version_is_build_date (c c' : Catalog) (y m day : Nat) :
    (stampCatalogVersion c y m day).version = some (specDateYYYYMMDD y m day) ∧
    (stampCatalogVersion c y m day).version = (stampCatalogVersion c' y m day).version := by
  constructor
  · show some (formatCatalogDate y m day) = some (specDateYYYYMMDD y m day)
    unfold formatCatalogDate specDateYYYYMMDD zeroPad2
    by_cases hm : m < 10 <;> by_cases hd : day < 10 <;>
      simp [hm, hd, String.append_assoc]
  · rfl

/-- C6 (counterexample): the two-element lists ["0", "00"] and ["00", "0"]
are permutations of each other, every element parses as a number, yet
`maxVersion` returns "00" on the first and "0" on the second: on a tie of
numeric values the reduce keeps the right operand, so the result string
depends on the order of the list. -/
theorem maxVersion_not_perm_invariant :
    (["0", "00"] : List String).Perm ["00", "0"] ∧
    (jsNum "0").isSome ∧ (jsNum "00").isSome ∧
    maxVersion ["0", "00"] ≠ maxVersion ["00", "0"] := by
  refine ⟨List.Perm.swap "00" "0" [], ?_, ?_, ?_⟩ <;> decide

/-- C6 (amended): for version strings that parse as numbers,
`compareVersions(a,b) > 0` iff `compareVersions(b,a) < 0` and
`compareVersions(a,a) = 0`; and for any two lists of numeric version
strings that are permutations of one another, `maxVersion` returns results
with the same numeric value (the result string itself may differ when
distinct strings share one numeric value, as the counterexample shows). -/
theorem compareVersions_sign_maxVersion_perm :
    (∀ a b : String, (jsNum a).isSome → (jsNum b).isSome →
      compareGt a b = compareLt b a ∧ compareVersions a a = some 0) ∧
    (∀ l l' : List String, l.Perm l' → (∀ v ∈ l, (jsNum v).isSome) →
      (maxVersion l).bind jsNum = (maxVersion l').bind jsNum) := by
  constructor
  · intro a b ha hb
    obtain ⟨x, hx⟩ := Option.isSome_iff_exists.mp ha
    obtain ⟨y, hy⟩ := Option.isSome_iff_exists.mp hb
    constructor
    · simp only [compareGt, compareLt, compareVersions, hx, hy]
      have : (0 < x - y) = (y - x < 0) := by
        apply propext; omega
      simp [this]
    · simp [compareVersions, hx]
  · intro l l' hperm hnum
    cases l with
    | nil =>
      rw [hperm.symm.eq_nil]
    | cons h t =>
      cases l' with
      | nil => exact absurd hperm.eq_nil (by simp)
      | cons h' t' =>
        obtain ⟨x, hx⟩ := Option.isSome_iff_exists.mp (hnum h (by simp))
        have hnum' : ∀ v ∈ h' :: t', (jsNum v).isSome := fun v hv =>
          hnum v (hperm.mem_iff.mpr hv)
        obtain ⟨x', hx'⟩ := Option.isSome_iff_exists.mp (hnum' h' (by simp))
        have e1 := jsNum_foldl_maxV2 t h x hx (fun u hu => hnum u (by simp [hu]))
        have e2 := jsNum_foldl_maxV2 t' h' x' hx' (fun u hu => hnum' u (by simp [hu]))
        show jsNum (t.foldl maxV2 h) = jsNum (t'.foldl maxV2 h')
        rw [e1, e2]
        have hfold := reduce_max_perm (List.Perm.map valD hperm)
          x (t.map valD) x' (t'.map valD)
          (by simp [valD, hx]) (by simp [valD, hx'])
        rw [hfold]

/-- C6 (witness): the amended theorem instantiated at the numeric strings
"3", "5" and the permuted numeric lists ["1", "2"] and ["2", "1"]. -/
theorem compareVersions_sign_maxVersion_perm_witness :
    (compareGt "3" "5" = compareLt "5" "3" ∧ compareVersions "3" "3" = some 0) ∧
    (maxVersion ["1", "2"]).bind jsNum = (maxVersion ["2", "1"]).bind jsNum :=
  ⟨compareVersions_sign_maxVersion_perm.1 "3" "5" (by decide) (by decide),
   compareVersions_sign_maxVersion_perm.2 ["1", "2"] ["2", "1"]
     (List.Perm.swap "2" "1" []) (by decide)⟩

theorem jsNumU_some (s : String) : jsNumU (some s) = jsNum s := rfl

theorem valD_eq {s : String} {x : Int} (h : jsNum s = some x) : valD s = x := by
  simp [valD, h]

theorem jsNumU_maxV2U {u v : Option String} {x y : Int}
    (hu : jsNumU u = some x) (hv : jsNumU v = some y) :
    jsNumU (maxV2U u v) = some (max x y) := by
  have hc : compareGtU u v = decide (y < x) := by
    unfold compareGtU; rw [hu, hv]
  unfold maxV2U
  rw [hc]
  by_cases h : y < x
  · simp [h, hu, max_eq_left h.le]
  · simp [h, hv, max_eq_right (not_lt.mp h)]

theorem maxV2_right_of_le {p l : String} {x m : Int}
    (hp : jsNum p = some x) (hl : jsNum l = some m) (h : x ≤ m) :
    maxV2 p l = l := by
  have hc : compareGt p l = false := by
    simp [compareGt, compareVersions, hp, hl]
    omega
  simp [maxV2, hc]

theorem foldl_maxV2U_map_some (l : List String) :
    ∀ a : String, (l.map some).foldl maxV2U (some a) = some (l.foldl maxV2 a) := by
  induction l with
  | nil => intro a; rfl
  | cons v t ih =>
    intro a
    have : maxV2U (some a) (some v) = some (maxV2 a v) := by
      unfold maxV2U maxV2
      rw [compareGtU_some]
      by_cases h : compareGt a v <;> simp [h]
    simp only [List.map_cons, List.foldl_cons, this]
    exact ih (maxV2 a v)

/-- All entry versions of a list of release channels, in iteration order. -/
def allReleaseVersions (channels : List ReleaseChannel) : List String :=
  (channels.map (fun r => r.entries.map ReleaseEntry.version)).flatten

theorem foldl_entries_pair (es : List ReleaseEntry) :
    ∀ acc : String × Option String,
      es.foldl (fun acc v => (maxV2 acc.1 v.version, acc.2)) acc
        = ((es.map ReleaseEntry.version).foldl maxV2 acc.1, acc.2) := by
  induction es with
  | nil => intro acc; rfl
  | cons v t ih =>
    intro acc
    simp only [List.foldl_cons, List.map_cons]
    exact ih (maxV2 acc.1 v.version, acc.2)

theorem releasesChannelLoop_tags_none {r : ReleaseChannel} (h : r.tags = none) :
    ∀ acc, releasesChannelLoop r acc
      = ((r.entries.map ReleaseEntry.version).foldl maxV2 acc.1, acc.2) := by
  intro acc
  unfold releasesChannelLoop
  rw [h]
  simpa using foldl_entries_pair r.entries acc

theorem releases_fold_tags_none {channels : List ReleaseChannel}
    (h : ∀ r ∈ channels, r.tags = none) :
    ∀ acc : String × Option String,
      channels.foldl (fun acc r => releasesChannelLoop r acc) acc
        = ((allReleaseVersions channels).foldl maxV2 acc.1, acc.2) := by
  induction channels with
  | nil => intro acc; rfl
  | cons r t ih =>
    intro acc
    simp only [List.foldl_cons]
    rw [releasesChannelLoop_tags_none (h r (by simp))]
    rw [ih (fun r' hr' => h r' (by simp [hr']))]
    simp [allReleaseVersions, List.foldl_append]

/-- C4: each aggregated version stamped by the propagation passes — a core
entry's version, the cores-level version, a system entry's version, the
systems-level version, and the releases-level version — has, for numeric
(date-valued, hence nonnegative where noted) inputs, the numeric value of
the maximum of its children's versions and its own previously stamped
value(s); in particular it is never numerically below the previously
stamped value, so a rerun cannot move a stamped version backward as long as
the children did not regress. For the releases level the channels are
JSON-parsed arrays, whose `tags` property is absent. -/
theorem aggregated_version_is_max_of_children :
    (∀ (p : String) (rvs : List String), (jsNum p).isSome →
        (∀ v ∈ rvs, (jsNum v).isSome) →
        jsNum (buildCoreEntryVersion (some p) rvs)
            = some ((rvs.map valD).foldl max (valD p)) ∧
        valD p ≤ (rvs.map valD).foldl max (valD p)) ∧
    (∀ (p : String) (cvs : List String), (jsNum p).isSome →
        (∀ v ∈ cvs, (jsNum v).isSome) →
        jsNum (buildCoresCatalogVersion (some p) cvs)
            = some ((cvs.map valD).foldl max (valD p)) ∧
        valD p ≤ (cvs.map valD).foldl max (valD p)) ∧
    (∀ (a b gv : String), (jsNum a).isSome → (jsNum b).isSome →
        (jsNum gv).isSome → 0 ≤ valD a →
        jsNumU (buildSystemEntryVersion (some a) (some b) (some (some gv)))
            = some (max (max (valD a) (valD b)) (valD gv)) ∧
        jsNumU (buildSystemEntryVersion (some a) (some b) none)
            = some (max (valD a) (valD b)) ∧
        valD a ≤ max (max (valD a) (valD b)) (valD gv) ∧
        valD b ≤ max (max (valD a) (valD b)) (valD gv)) ∧
    (∀ (p : String) (svs : List String), (jsNum p).isSome →
        (∀ v ∈ svs, (jsNum v).isSome) →
        jsNumU (buildSystemsCatalogVersion (some p) none (svs.map some))
            = some (max (valD p) ((svs.map valD).foldl max 0)) ∧
        valD p ≤ max (valD p) ((svs.map valD).foldl max 0)) ∧
    (∀ (p : String) (channels : List ReleaseChannel), (jsNum p).isSome →
        (∀ r ∈ channels, r.tags = none) →
        (∀ r ∈ channels, ∀ v ∈ r.entries, (jsNum v.version).isSome) →
        jsNum (buildReleasesVersion (some p) channels)
            = some (((allReleaseVersions channels).map valD).foldl max (valD p)) ∧
        valD p ≤ ((allReleaseVersions channels).map valD).foldl max (valD p)) := by
  have core : ∀ (p : String) (rvs : List String), (jsNum p).isSome →
      (∀ v ∈ rvs, (jsNum v).isSome) →
      jsNum (buildCoreEntryVersion (some p) rvs)
        = some ((rvs.map valD).foldl max (valD p)) := by
    intro p rvs hp hall
    obtain ⟨x, hx⟩ := Option.isSome_iff_exists.mp hp
    rw [valD_eq hx]
    exact jsNum_foldl_maxV2 rvs p x hx hall
  refine ⟨?_, ?_, ?_, ?_, ?_⟩
  · intro p rvs hp hall
    exact ⟨core p rvs hp hall, le_foldl_max (rvs.map valD) (valD p)⟩
  · intro p cvs hp hall
    obtain ⟨x, hx⟩ := Option.isSome_iff_exists.mp hp
    have hlat := core p cvs hp hall
    have hle : valD p ≤ (cvs.map valD).foldl max (valD p) := le_foldl_max _ _
    constructor
    · show jsNum (maxV2 p (cvs.foldl maxV2 p)) = _
      rw [maxV2_right_of_le hx (by simpa [buildCoreEntryVersion] using hlat)
            (le_of_eq_of_le (valD_eq hx).symm hle)]
      simpa [buildCoreEntryVersion] using hlat
    · exact hle
  · intro a b gv ha hb hgv ha0
    obtain ⟨x, hx⟩ := Option.isSome_iff_exists.mp ha
    obtain ⟨y, hy⟩ := Option.isSome_iff_exists.mp hb
    obtain ⟨z, hz⟩ := Option.isSome_iff_exists.mp hgv
    have h1 : jsNumU (maxV2U (some a) (some b)) = some (max x y) :=
      jsNumU_maxV2U (by simpa [jsNumU_some] using hx) (by simpa [jsNumU_some] using hy)
    have h0 : jsNumU (some "0") = some 0 := rfl
    have h2 : jsNumU (maxV2U (maxV2U (some a) (some b)) (some "0"))
        = some (max (max x y) 0) := jsNumU_maxV2U h1 h0
    have hxy0 : max (max x y) 0 = max x y := by
      rw [valD_eq hx] at ha0
      exact max_eq_left (le_trans ha0 (le_max_left x y))
    rw [hxy0] at h2
    have h3 : jsNumU (maxV2U (some gv) (maxV2U (maxV2U (some a) (some b)) (some "0")))
        = some (max z (max x y)) :=
      jsNumU_maxV2U (by simpa [jsNumU_some] using hz) h2
    refine ⟨?_, ?_, ?_, ?_⟩
    · show jsNumU (maxV2U (some gv) (maxV2U (maxV2U (some a) (some b)) (some "0"))) = _
      rw [h3, valD_eq hx, valD_eq hy, valD_eq hz, max_comm z (max x y)]
    · show jsNumU (maxV2U (maxV2U (some a) (some b)) (some "0")) = _
      rw [h2, valD_eq hx, valD_eq hy]
    · exact le_trans (le_max_left _ _) (le_max_left _ _)
    · exact le_trans (le_max_right _ _) (le_max_left _ _)
  · intro p svs hp hall
    obtain ⟨x, hx⟩ := Option.isSome_iff_exists.mp hp
    have hfold : jsNum (svs.foldl maxV2 "0") = some ((svs.map valD).foldl max 0) :=
      jsNum_foldl_maxV2 svs "0" 0 rfl hall
    constructor
    · show jsNumU (maxV2U (some p) ((svs.map some).foldl maxV2U (some "0"))) = _
      rw [foldl_maxV2U_map_some]
      rw [jsNumU_maxV2U (by simpa [jsNumU_some] using hx)
            (by simpa [jsNumU_some] using hfold)]
      rw [valD_eq hx]
    · exact le_max_left _ _
  · intro p channels hp htags hall
    obtain ⟨x, hx⟩ := Option.isSome_iff_exists.mp hp
    have hallv : ∀ v ∈ allReleaseVersions channels, (jsNum v).isSome := by
      intro v hv
      simp only [allReleaseVersions, List.mem_flatten, List.mem_map] at hv
      obtain ⟨vs, ⟨r, hr, hvs⟩, hvvs⟩ := hv
      subst hvs
      obtain ⟨e, he, hev⟩ := List.mem_map.mp hvvs
      subst hev
      exact hall r hr e he
    have hacc := releases_fold_tags_none htags ((some p).getD "0", none)
    have hfold : jsNum ((allReleaseVersions channels).foldl maxV2 p)
        = some (((allReleaseVersions channels).map valD).foldl max (valD p)) := by
      rw [valD_eq hx]
      exact jsNum_foldl_maxV2 _ p x hx hallv
    have hle : valD p ≤ ((allReleaseVersions channels).map valD).foldl max (valD p) :=
      le_foldl_max _ _
    constructor
    · show jsNum (buildReleasesVersion (some p) channels) = _
      unfold buildReleasesVersion
      rw [hacc]
      simp only [Option.getD_some]
      rw [maxV2_right_of_le hx hfold (le_of_eq_of_le (valD_eq hx).symm hle)]
      exact hfold
    · exact hle

/-- C4 (witness): the five aggregation points instantiated at concrete
numeric versions. -/
theorem aggregated_version_is_max_of_children_witness :
    jsNum (buildCoreEntryVersion (some "20230101") ["20230601"]) = some 20230601 ∧
    jsNum (buildCoresCatalogVersion (some "20230701") ["20230601"]) = some 20230701 ∧
    jsNumU (buildSystemEntryVersion (some "20230101") (some "20230101")
        (some (some "20230601"))) = some 20230601 ∧
    jsNumU (buildSystemsCatalogVersion (some "20230101") none
        (["20230601"].map some)) = some 20230601 ∧
    jsNum (buildReleasesVersion (some "20230101")
        [{ entries := [{ version := "20230601" }] }]) = some 20230601 := by
  have h := aggregated_version_is_max_of_children
  refine ⟨?_, ?_, ?_, ?_, ?_⟩
  · exact ((h.1 "20230101" ["20230601"] (by decide) (by decide)).1).trans (by decide)
  · exact ((h.2.1 "20230701" ["20230601"] (by decide) (by decide)).1).trans (by decide)
  · exact ((h.2.2.1 "20230101" "20230101" "20230601" (by decide) (by decide)
      (by decide) (by decide)).1).trans (by decide)
  · exact ((h.2.2.2.1 "20230101" ["20230601"] (by decide) (by decide)).1).trans (by decide)
  · exact ((h.2.2.2.2 "20230101" [{ entries := [{ version := "20230601" }] }]
      (by decide) (by decide) (by decide)).1).trans (by decide)

/-- String prefix test over the underlying character lists, a
kernel-computable rendering of JS `s.startsWith(pre)`. -/
def strStartsWith (s pre : String) : Bool :=
  pre.data.isPrefixOf s.data

/-- Node's `path.isAbsolute` on POSIX: the path begins with a slash. -/
def jsIsAbsolute (s : String) : Bool :=
  strStartsWith s "/"

/-- The sandbox guard opening `copy` in build.js:
`path.isAbsolute(source) || source.startsWith('..')`. -/
def copyGuard (source : String) : Bool :=
  jsIsAbsolute source || strStartsWith source ".."

/-- Rendering of `JSON.stringify` applied to a path string: the quoted
string. Escaping is omitted; it is exact for paths free of quotes,
backslashes and control characters, which covers every path in scope. -/
def jsonQuote (s : String) : String :=
  "\"" ++ s ++ "\""

/-- The error message thrown by the sandbox guard of `copy`. -/
def sandboxErrorMsg (source : String) : String :=
  "Source path " ++ jsonQuote source ++ " must be relative to the root folder."

/-- The `copy` function of build.js, abstracted over the remainder of its
body: the guard check is its first statement, and every filesystem effect
(`mkdir`, `lstat`, the conversions, the recursive copying) happens after
it; those effects are collapsed into the continuation `k` updating the
list of written destination paths. The result pairs the thrown error, if
any, with the final written state, so a guard rejection leaves the state
untouched. -/
def copy (k : List String → List String) (written : List String) (source : String) :
    Option String × List String :=
  if copyGuard source then (some (sandboxErrorMsg source), written)
  else (none, k written)

/-- Splitting a path string on slashes into its raw components. -/
def splitPathAux : List Char → List Char → List String
  | [], cur => [String.mk cur.reverse]
  | c :: rest, cur =>
    if c = '/' then String.mk cur.reverse :: splitPathAux rest []
    else splitPathAux rest (c :: cur)

/-- Components of a POSIX path, dropping empty segments and ".". -/
def splitPath (s : String) : List String :=
  (splitPathAux s.data []).filter (fun c => c != "" && c != ".")

/-- Stack-based normalization of path components against a base stack, as
`path.resolve` performs it: ".." pops one component (staying put at the
filesystem root when the stack is empty), anything else pushes. -/
def normSteps : List String → List String → List String
  | stack, [] => stack
  | stack, c :: rest =>
    if c = ".." then normSteps stack.dropLast rest
    else normSteps (stack ++ [c]) rest

/-- Resolution of the `source` argument of `copy` against the source root,
modelling `path.resolve(SOURCE_ROOT, source)` on component stacks: an
absolute source discards the base entirely. -/
def resolveUnder (root : List String) (s : String) : List String :=
  if jsIsAbsolute s then normSteps [] (splitPath s)
  else normSteps root (splitPath s)

/-- Whether the resolved source path lies outside the source root — the
spec's notion of a sandbox escape, written from its words "a source path
must resolve inside the declared source root". -/
def escapesSourceRoot (root : List String) (s : String) : Bool :=
  !(root.isPrefixOf (resolveUnder root s))

/-- C2 (counterexample): the relative source "a/../../x" resolves outside
the source root (ROOT/files/a/../../x normalizes to ROOT/x) yet is neither
absolute nor literally starting with "..", so the guard passes: `copy`
raises no sandbox error and proceeds to write. The claim that every source
resolving outside the root fails fast and writes nothing is therefore
false on the code. -/
theorem copy_sandbox_escape_not_rejected :
    escapesSourceRoot ["root", "files"] "a/../../x" = true ∧
    copyGuard "a/../../x" = false ∧
    copy (fun w => "x" :: w) [] "a/../../x" = (none, ["x"]) := by
  refine ⟨?_, ?_, ?_⟩ <;> decide

/-- C2 (amended): `copy` fails fast with the sandbox-violation error,
writing nothing, exactly when the source is an absolute path or starts
with the literal prefix ".."; in particular the direct upward traversal
"../../etc/passwd" of the spec's scenario is rejected with the state
untouched, while a source passing that syntactic test proceeds even if its
resolved path escapes the root (see the counterexample). -/
theorem copy_guard_characterization
    (k : List String → List String) (written : List String) (source : String) :
    (jsIsAbsolute source = true ∨ strStartsWith source ".." = true →
      copy k written source = (some (sandboxErrorMsg source), written)) ∧
    (jsIsAbsolute source = false → strStartsWith source ".." = false →
      copy k written source = (none, k written)) := by
  constructor
  · intro h
    have hg : copyGuard source = true := by
      unfold copyGuard
      rcases h with h | h <;> simp [h]
    simp [copy, hg]
  · intro h1 h2
    have hg : copyGuard source = false := by
      unfold copyGuard
      simp [h1, h2]
    simp [copy, hg]

/-- C2 (witness): the amended theorem applied to the spec's sandbox
scenario `copy("../../etc/passwd", ...)`: the guard fires and nothing is
written. -/
theorem copy_guard_characterization_witness :
    copy (fun w => "pwned" :: w) [] "../../etc/passwd"
      = (some (sandboxErrorMsg "../../etc/passwd"), []) :=
  (copy_guard_characterization (fun w => "pwned" :: w) [] "../../etc/passwd").1
    (Or.inr (by decide))

/-- The base64 alphabet. -/
def base64Chars : List Char :=
  "ABCDEFGHIJKLMNOPQRSTUVWXYZabcdefghijklmnopqrstuvwxyz0123456789+/".data

/-- Character of the base64 alphabet at a 6-bit index. -/
def b64Char (n : Nat) : Char :=
  base64Chars.getD n '?'

/-- Base64 encoding of a byte sequence, as `sig.toString('base64')`
produces it: three bytes become four alphabet characters, with `=` padding
for a trailing group of one or two bytes. -/
def base64Encode : List Nat → String
  | [] => ""
  | [a] =>
    String.mk [b64Char (a / 4), b64Char (a % 4 * 16)] ++ "=="
  | [a, b] =>
    String.mk [b64Char (a / 4), b64Char (a % 4 * 16 + b / 16),
               b64Char (b % 16 * 4)] ++ "="
  | a :: b :: c :: rest =>
    String.mk [b64Char (a / 4), b64Char (a % 4 * 16 + b / 16),
               b64Char (b % 16 * 4 + c / 64), b64Char (c % 64)]
      ++ base64Encode rest

/-- Embeds `calculateSignature(fPath)` from build.js over a filesystem
modelled as a partial map from paths to byte lists. `fs.access` failing on
`fPath + '.sig'` is the `none` case and returns null; otherwise the file
and its signature are read and checked by `verify`, which stands for
`crypto.verify(null, data, publicKey, sig)` with the fixed embedded public
key (the cryptographic primitive itself is an oracle parameter). A failed
verification throws the error naming the file; a successful one returns
the signature re-encoded as base64. Reading `fPath` itself can only fail
if the file vanished between the build steps, modelled as a distinct
error. -/
def calculateSignature (fs : String → Option (List Nat))
    (verify : List Nat → List Nat → Bool) (fPath : String) :
    Except String (Option String) :=
  match fs (fPath ++ ".sig") with
  | none => .ok none
  | some sig =>
    match fs fPath with
    | none => .error ("ENOENT: no such file " ++ jsonQuote fPath)
    | some data =>
      if verify data sig then .ok (some (base64Encode sig))
      else .error ("Could not validate signature in " ++ jsonQuote fPath ++ "...")

/-- C3: for a file present on disk, `calculateSignature` returns null when
no adjacent `.sig` file exists; returns the signature bytes re-encoded as
base64 when the `.sig` file exists and verifies over the file's exact
contents; and throws a fatal error naming the file when the `.sig` file
exists but fails verification. -/
theorem calculateSignature_contract
    (fs : String → Option (List Nat)) (verify : List Nat → List Nat → Bool)
    (fPath : String) (data sig : List Nat) :
    (fs (fPath ++ ".sig") = none →
      calculateSignature fs verify fPath = .ok none) ∧
    (fs (fPath ++ ".sig") = some sig → fs fPath = some data →
      verify data sig = true →
      calculateSignature fs verify fPath = .ok (some (base64Encode sig))) ∧
    (fs (fPath ++ ".sig") = some sig → fs fPath = some data →
      verify data sig = false →
      calculateSignature fs verify fPath
        = .error ("Could not validate signature in " ++ jsonQuote fPath ++ "...")) := by
  refine ⟨?_, ?_, ?_⟩
  · intro h
    simp [calculateSignature, h]
  · intro hs hd hv
    simp [calculateSignature, hs, hd, hv]
  · intro hs hd hv
    simp [calculateSignature, hs, hd, hv]

/-- A concrete five-file filesystem used by the signature witnesses:
a correctly signed file, a file with a non-verifying signature, and an
unsigned file. -/
def witnessFs : String → Option (List Nat) :=
  fun p =>
    if p = "signed.bin" then some [1]
    else if p = "signed.bin.sig" then some [9]
    else if p = "bad.bin" then some [2]
    else if p = "bad.bin.sig" then some [7]
    else if p = "plain.bin" then some [3]
    else none

/-- A concrete verification oracle accepting exactly the signed witness
file's data/signature pair. -/
def witnessVerify : List Nat → List Nat → Bool :=
  fun d s => d = [1] && s = [9]

/-- C3 (witness): the three branches of the signature contract at the
concrete witness filesystem. -/
theorem calculateSignature_contract_witness :
    calculateSignature witnessFs witnessVerify "plain.bin" = .ok none ∧
    calculateSignature witnessFs witnessVerify "signed.bin"
      = .ok (some (base64Encode [9])) ∧
    calculateSignature witnessFs witnessVerify "bad.bin"
      = .error ("Could not validate signature in " ++ jsonQuote "bad.bin" ++ "...") :=
  ⟨(calculateSignature_contract witnessFs witnessVerify "plain.bin" [] []).1
     (by decide),
   (calculateSignature_contract witnessFs witnessVerify "signed.bin" [1] [9]).2.1
     (by decide) (by decide) (by decide),
   (calculateSignature_contract witnessFs witnessVerify "bad.bin" [2] [7]).2.2
     (by decide) (by decide) (by decide)⟩

/-- Embeds `calculateSizeAndSha256(path)` from build.js: the byte size of
the file's current contents, and their digest under `hash`, which stands
for the hex-encoded sha256 (an oracle parameter: only that the values are
recomputed from the bytes matters to the claims). -/
def calculateSizeAndSha256 (hash : List Nat → String) (content : List Nat) :
    Int × String :=
  ((content.length : Int), hash content)

/-- The per-file body of the release loop in `buildReleases`
(build.js lines 223-236): resolve the file path against the releases
directory (`path.join` on well-formed relative segments modelled as
slash-joining), overwrite `f.size` and `f.sha256` with recomputed values,
then compute the signature; `delete f.signature` when it is null, else
store it. A thrown error (missing file, invalid signature) propagates. -/
def updateReleaseFile (fs : String → Option (List Nat))
    (verify : List Nat → List Nat → Bool) (hash : List Nat → String)
    (dir : String) (f : ReleaseFile) : Except String ReleaseFile :=
  let fPath := dir ++ "/" ++ f.url
  match fs fPath with
  | none => .error ("ENOENT: no such file " ++ jsonQuote fPath)
  | some content =>
    let sz := calculateSizeAndSha256 hash content
    let f1 : ReleaseFile := { f with size := some sz.1, sha256 := some sz.2 }
    match calculateSignature fs verify fPath with
    | .error e => .error e
    | .ok none => .ok { f1 with signature := none }
    | .ok (some s) => .ok { f1 with signature := some s }

/-- C9: for a release file whose adjacent `.sig` does not exist, the
updated record has no signature field (any incoming value is deleted),
carries freshly recomputed size and sha256, and keeps its url unchanged. -/
theorem buildReleases_unsigned_file_update
    (fs : String → Option (List Nat)) (verify : List Nat → List Nat → Bool)
    (hash : List Nat → String) (dir : String) (f : ReleaseFile)
    (content : List Nat)
    (hfile : fs (dir ++ "/" ++ f.url) = some content)
    (hnosig : fs (dir ++ "/" ++ f.url ++ ".sig") = none) :
    updateReleaseFile fs verify hash dir f
      = .ok { url := f.url,
              size := some (calculateSizeAndSha256 hash content).1,
              sha256 := some (calculateSizeAndSha256 hash content).2,
              signature := none } := by
  unfold updateReleaseFile
  simp only [hfile]
  have hsig : calculateSignature fs verify (dir ++ "/" ++ f.url) = .ok none := by
    simp [calculateSignature, hnosig]
  simp only [hsig]

/-- C9 (witness): a stale incoming signature and stale size/sha256 on the
record are replaced at a one-file filesystem where "d/plain.bin" has no
adjacent .sig. -/
theorem buildReleases_unsigned_file_update_witness :
    updateReleaseFile (fun p => if p = "d/plain.bin" then some [3] else none)
        witnessVerify (fun c => "h" ++ toString c.length)
        "d" { url := "plain.bin", size := some 999, sha256 := some "stale",
              signature := some "stalesig" }
      = .ok { url := "plain.bin",
              size := some (calculateSizeAndSha256
                  (fun c => "h" ++ toString c.length) [3]).1,
              sha256 := some (calculateSizeAndSha256
                  (fun c => "h" ++ toString c.length) [3]).2,
              signature := none } :=
  buildReleases_unsigned_file_update
    (fun p => if p = "d/plain.bin" then some [3] else none) witnessVerify
    (fun c => "h" ++ toString c.length) "d"
    { url := "plain.bin", size := some 999, sha256 := some "stale",
      signature := some "stalesig" } [3] (by decide) (by decide)

/-- Open-bracket class `[(\[]` of the game-name regexes. -/
def isOpenBracket (c : Char) : Bool :=
  c = '(' || c = '['

/-- Close-bracket class `[)\]]` of the tag regex. -/
def isCloseBracket (c : Char) : Bool :=
  c = ')' || c = ']'

/-- JS regex `\s` on the ASCII whitespace characters (space, tab, newline,
carriage return, vertical tab, form feed); the additional Unicode space
code points never occur in game names. -/
def isJsWs (c : Char) : Bool :=
  c = ' ' || c = '\t' || c = '\n' || c = '\r'
    || c = Char.ofNat 11 || c = Char.ofNat 12

/-- Line terminators, which `.` does not match in a JS regex without the
`s` flag. -/
def isLineTerm (c : Char) : Bool :=
  c = '\n' || c = '\r'

/-- Characters before the first open bracket, or `none` when no open
bracket occurs. -/
def takeUntilOpen : List Char → Option (List Char)
  | [] => none
  | c :: rest =>
    if isOpenBracket c then some []
    else (takeUntilOpen rest).map (fun p => c :: p)

/-- Trailing whitespace stripped from a character list. -/
def dropTrailingWs (cs : List Char) : List Char :=
  (cs.reverse.dropWhile isJsWs).reverse

/-- The match of `SHORTNAME_RE = /^(?<name>.*?)\s*[(\[]/` on a game name:
the lazy `.*?` keeps the shortest prefix allowing `\s*` and an open
bracket to follow, i.e. the text before the first open bracket with its
trailing whitespace consumed by `\s*` instead. The whitespace run may
contain line terminators (`\s` matches them) but the kept prefix may not
(`.` does not), in which case no later starting point can succeed either
and the whole regex fails, yielding null. -/
def shortnameOf (name : String) : Option String :=
  match takeUntilOpen name.data with
  | none => none
  | some p =>
    let q := dropTrailingWs p
    if q.any isLineTerm then none else some (String.mk q)

/-- Scan for the first close bracket in the characters following an open
bracket, as the lazy `.*?` of `TAGS_RE = /[(\[](?<tag>.*?)[)\]]/g` does:
returns the content and the remainder after the close, or `none` when a
line terminator (which `.` cannot match) or the end of input intervenes. -/
def findClose : List Char → Option (List Char × List Char)
  | [] => none
  | c :: rest =>
    if isCloseBracket c then some ([], rest)
    else if isLineTerm c then none
    else (findClose rest).map (fun pr => (c :: pr.1, pr.2))

/-- The global scan of `TAGS_RE` with explicit fuel (any fuel at least the
input length is exact; the wrapper passes the length): at an open bracket,
a successful lazy close-search emits the delimited content and resumes
after the close (the regex `lastIndex` advance); a failed one — no close
before a line terminator or the end — makes the engine retry from the next
character, and every start position strictly between also fails, so
skipping one character is faithful. -/
def extractTagsFuel : Nat → List Char → List (List Char)
  | 0, _ => []
  | _ + 1, [] => []
  | fuel + 1, c :: rest =>
    if isOpenBracket c then
      match findClose rest with
      | some (content, r) => content :: extractTagsFuel fuel r
      | none => extractTagsFuel fuel rest
    else extractTagsFuel fuel rest

/-- All `(...)` and `[...]` delimited groups scanned from a character
list by `TAGS_RE`. -/
def extractTags (cs : List Char) : List (List Char) :=
  extractTagsFuel cs.length cs

/-- The tag strings extracted from a game name. -/
def tagStrings (name : String) : List String :=
  (extractTags name.data).map (fun cs => String.mk cs)

/-- Deduplication keeping first occurrences, as `[...new Set(tags)]`
produces (a JS Set preserves insertion order). -/
def firstDedup (l : List String) : List String :=
  l.foldl (fun acc x => if x ∈ acc then acc else acc ++ [x]) []

/-- One game object of the flat game list consumed by the ingestion
engine's per-game loop (the fields the derivation reads). -/
structure GameRec where
  name : String
  shortname : Option String := none
  nameAlt : Option String := none
  year : Option Int := none
  tags : Option (List String) := none
deriving DecidableEq, Repr

/-- Embeds `shortname = shortname ?? (SHORTNAME_RE.exec(name)?.groups?.name
?? null)` of the per-game derivation. -/
def deriveShortname (g : GameRec) : Option String :=
  match g.shortname with
  | some s => some s
  | none => shortnameOf g.name

/-- Embeds the tag accumulation of the per-game derivation:
`tags = tags ?? []`, push every `TAGS_RE` match group, then
`[...new Set(tags)]`. -/
def deriveTags (g : GameRec) : List String :=
  firstDedup (g.tags.getD [] ++ tagStrings g.name)

/-- The row inserted into `GamesId` for one game. -/
structure GamesIdRow where
  fullname : String
  title : Option String
  originalTitle : Option String
  year : Option Int
deriving DecidableEq, Repr

/-- Embeds the `GamesId` insert of the per-game loop: `fullname = name`,
`title = shortname ?? null`, `originalTitle = nameAlt ?? null`,
`year = year ?? null`. -/
def gamesIdRow (g : GameRec) : GamesIdRow :=
  { fullname := g.name
    title := deriveShortname g
    originalTitle := g.nameAlt
    year := g.year }

theorem takeUntilOpen_split (p : List Char) (c : Char) (rest : List Char)
    (hopen : isOpenBracket c = true)
    (hnoopen : ∀ c' ∈ p, isOpenBracket c' = false) :
    takeUntilOpen (p ++ c :: rest) = some p := by
  induction p with
  | nil => simp [takeUntilOpen, hopen]
  | cons a q ih =>
    have ha : isOpenBracket a = false := hnoopen a (by simp)
    simp only [List.cons_append, takeUntilOpen, ha, List.append_eq]
    rw [ih (fun c' hc' => hnoopen c' (by simp [hc']))]
    simp

theorem takeUntilOpen_none (cs : List Char)
    (h : ∀ c ∈ cs, isOpenBracket c = false) :
    takeUntilOpen cs = none := by
  induction cs with
  | nil => rfl
  | cons a q ih =>
    simp only [takeUntilOpen, h a (by simp)]
    rw [ih (fun c hc => h c (by simp [hc]))]
    simp

theorem extractTagsFuel_no_open (cs : List Char)
    (h : ∀ c ∈ cs, isOpenBracket c = false) :
    ∀ fuel, extractTagsFuel fuel cs = [] := by
  induction cs with
  | nil => intro fuel; cases fuel <;> rfl
  | cons a q ih =>
    intro fuel
    cases fuel with
    | zero => rfl
    | succ n =>
      simp only [extractTagsFuel, h a (by simp)]
      exact ih (fun c hc => h c (by simp [hc])) n

theorem mem_firstDedup_aux (l : List String) :
    ∀ (acc : List String) (x : String),
      (x ∈ l.foldl (fun acc x => if x ∈ acc then acc else acc ++ [x]) acc)
        ↔ (x ∈ acc ∨ x ∈ l) := by
  induction l with
  | nil => simp
  | cons v t ih =>
    intro acc x
    simp only [List.foldl_cons]
    rw [ih]
    by_cases hv : v ∈ acc
    · simp only [if_pos hv, List.mem_cons]
      constructor
      · rintro (h | h)
        · exact Or.inl h
        · exact Or.inr (Or.inr h)
      · rintro (h | h | h)
        · exact Or.inl h
        · exact Or.inl (h ▸ hv)
        · exact Or.inr h
    · simp only [if_neg hv, List.mem_append, List.mem_singleton, List.mem_cons]
      tauto

theorem nodup_firstDedup_aux (l : List String) :
    ∀ acc : List String, acc.Nodup →
      (l.foldl (fun acc x => if x ∈ acc then acc else acc ++ [x]) acc).Nodup := by
  induction l with
  | nil => intro acc h; simpa using h
  | cons v t ih =>
    intro acc hacc
    simp only [List.foldl_cons]
    apply ih
    by_cases hv : v ∈ acc
    · simpa [if_pos hv] using hacc
    · rw [if_neg hv]
      exact List.Nodup.append hacc (List.nodup_singleton v) (by simp [hv])

/-- C7: when a game carries no explicit shortname, the derived shortname is
the `SHORTNAME_RE` match — the prefix of the name before the first
parenthesis or bracket, trailing whitespace stripped (characterized fully
by the second conjunct) — the tag list, as a deduplicated set, is the
union of the explicit tags with every parenthesis/bracket-delimited group
scanned from the name, and the stored title equals the derived
shortname. -/
theorem game_name_derivation (g : GameRec) (hns : g.shortname = none) :
    deriveShortname g = shortnameOf g.name ∧
    (∀ (p : List Char) (c : Char) (rest : List Char),
      g.name.data = p ++ c :: rest → isOpenBracket c = true →
      (∀ c' ∈ p, isOpenBracket c' = false) →
      (dropTrailingWs p).any isLineTerm = false →
      deriveShortname g = some (String.mk (dropTrailingWs p))) ∧
    (∀ t, t ∈ deriveTags g ↔ (t ∈ g.tags.getD [] ∨ t ∈ tagStrings g.name)) ∧
    (deriveTags g).Nodup ∧
    (gamesIdRow g).title = deriveShortname g := by
  have h1 : deriveShortname g = shortnameOf g.name := by
    simp [deriveShortname, hns]
  refine ⟨h1, ?_, ?_, ?_, rfl⟩
  · intro p c rest hsplit hopen hnoopen hnl
    rw [h1]
    unfold shortnameOf
    rw [hsplit, takeUntilOpen_split p c rest hopen hnoopen]
    simp [hnl]
  · intro t
    unfold deriveTags firstDedup
    rw [mem_firstDedup_aux]
    simp [List.mem_append]
  · unfold deriveTags firstDedup
    exact nodup_firstDedup_aux _ [] List.nodup_nil

/-- C7 (witness): the name "Super Game (USA) (Proto)" with no explicit
shortname yields shortname "Super Game", the unordered tag set
consisting of "USA" and "Proto", and title "Super Game". -/
theorem game_name_derivation_witness :
    (gamesIdRow { name := "Super Game (USA) (Proto)" }).title
      = deriveShortname { name := "Super Game (USA) (Proto)" } ∧
    deriveShortname { name := "Super Game (USA) (Proto)" } = some "Super Game" ∧
    deriveTags { name := "Super Game (USA) (Proto)" } = ["USA", "Proto"] ∧
    (deriveTags { name := "Super Game (USA) (Proto)" }).Nodup :=
  ⟨(game_name_derivation { name := "Super Game (USA) (Proto)" } rfl).2.2.2.2,
   ((game_name_derivation { name := "Super Game (USA) (Proto)" } rfl).2.1
      "Super Game ".data '(' "USA) (Proto)".data
      (by decide) (by decide) (by decide) (by decide)).trans (by decide),
   by decide,
   (game_name_derivation { name := "Super Game (USA) (Proto)" } rfl).2.2.2.1⟩

/-- C10: a game whose name contains no opening parenthesis and no opening
bracket and which has no explicit shortname derives a null shortname, so
its `GamesId` row carries a NULL title while `fullname` holds the complete
unmodified name, and the name scan contributes no extracted tags. -/
theorem plain_name_derivation (g : GameRec)
    (hnb : ∀ c ∈ g.name.data, isOpenBracket c = false)
    (hns : g.shortname = none) :
    deriveShortname g = none ∧
    tagStrings g.name = [] ∧
    (gamesIdRow g).title = none ∧
    (gamesIdRow g).fullname = g.name := by
  have hto : takeUntilOpen g.name.data = none := takeUntilOpen_none _ hnb
  have hsn : shortnameOf g.name = none := by
    unfold shortnameOf
    rw [hto]
  have hds : deriveShortname g = none := by
    simp [deriveShortname, hns, hsn]
  refine ⟨hds, ?_, hds, rfl⟩
  unfold tagStrings extractTags
  rw [extractTagsFuel_no_open _ hnb _]
  rfl

/-- C10 (witness): the bracket-free name "Tetris" with no explicit
shortname yields a NULL title, the untouched fullname, and no extracted
tags. -/
theorem plain_name_derivation_witness :
    deriveShortname { name := "Tetris" } = none ∧
    tagStrings "Tetris" = [] ∧
    (gamesIdRow { name := "Tetris" }).title = none ∧
    (gamesIdRow { name := "Tetris" }).fullname = "Tetris" :=
  plain_name_derivation { name := "Tetris" } (by decide) rfl

/-- A lookup table (`Tags`, `Regions` or `Languages`) as a list of
`(id, name)` rows; the schema declares `name` UNIQUE. -/
abbrev LookupTable := List (Nat × String)

/-- The names column of a lookup table. -/
def namesOf (t : LookupTable) : List String :=
  t.map Prod.snd

/-- The schema's UNIQUE(name) invariant on a lookup table. -/
def tableWF (t : LookupTable) : Prop :=
  (namesOf t).Nodup

/-- Number of rows of the table carrying a given name. -/
def countName (t : LookupTable) (name : String) : Nat :=
  (namesOf t).count name

/-- The `SELECT id FROM table WHERE name = ...` row lookup. -/
def findByName (t : LookupTable) (name : String) : Option (Nat × String) :=
  t.find? (fun r => r.2 == name)

/-- Row id assigned by the database to a fresh insert, modelled as the
successor of the table length (any fresh-id policy works; the claims only
compare returned ids). -/
def freshId (t : LookupTable) : Nat :=
  t.length + 1

/-- Embeds `insertTag(sql, name, table)` of the per-system database build:
first `INSERT INTO table (name) VALUES (name) ON CONFLICT DO NOTHING
RETURNING id` — with a UNIQUE(name) conflict the insert does nothing and
returns no row — then, when no row came back, `SELECT id FROM table WHERE
name = name`; when that also yields no row the function throws (in the JS
the throw site itself references an out-of-scope variable and so raises
either way; both throws are modelled as the error value). -/
def insertTag (t : LookupTable) (name : String) : Except String (Nat × LookupTable) :=
  let inserted : Option Nat × LookupTable :=
    if (findByName t name).isSome then (none, t)
    else (some (freshId t), t ++ [(freshId t, name)])
  match inserted.1 with
  | some id => .ok (id, inserted.2)
  | none =>
    match findByName inserted.2 name with
    | some r => .ok (r.1, inserted.2)
    | none => .error ("Could not find " ++ jsonQuote name ++ " but could not insert it either...")

/-- The sequence of `insertTag` calls issued while ingesting a system's
game list (tag, region and language names alike), with the id returned for
each call; an `insertTag` throw aborts the whole ingestion. The JS
dispatches the per-game calls through `Promise.all`, but they share one
connection and one transaction; the claims are order-independent, and the
model fixes the iteration order. -/
def ingestNames : LookupTable → List String → Except String (LookupTable × List Nat)
  | t, [] => .ok (t, [])
  | t, n :: rest =>
    match insertTag t n with
    | .error e => .error e
    | .ok (id, t') =>
      match ingestNames t' rest with
      | .error e => .error e
      | .ok (tbl, ids) => .ok (tbl, id :: ids)

theorem findByName_some_name {t : LookupTable} {name : String} {r : Nat × String}
    (h : findByName t name = some r) : r.2 = name := by
  have := List.find?_some h
  simpa using this

theorem findByName_none_not_mem {t : LookupTable} {name : String}
    (h : findByName t name = none) : name ∉ namesOf t := by
  intro hmem
  obtain ⟨r, hr, hr2⟩ := List.mem_map.mp hmem
  have := List.find?_eq_none.mp h r hr
  simp [hr2] at this

theorem countName_eq_one_of_mem {t : LookupTable} {name : String}
    (hwf : tableWF t) (hmem : name ∈ namesOf t) : countName t name = 1 := by
  have hle := List.nodup_iff_count_le_one.mp hwf name
  have hpos := List.count_pos_iff.mpr hmem
  unfold countName
  omega

theorem insertTag_spec (t : LookupTable) (name : String) (hwf : tableWF t) :
    ∃ id t', insertTag t name = .ok (id, t') ∧ tableWF t' ∧
      findByName t' name = some (id, name) ∧
      (∀ m, m ≠ name → findByName t' m = findByName t m) ∧
      countName t' name = 1 ∧
      (∀ m, m ≠ name → countName t' m = countName t m) := by
  cases hf : findByName t name with
  | some r =>
    refine ⟨r.1, t, ?_, hwf, ?_, fun m _ => rfl, ?_, fun m _ => rfl⟩
    · simp [insertTag, hf]
    · have hr2 := findByName_some_name hf
      rw [hf]
      congr 1
      exact Prod.ext rfl hr2
    · exact countName_eq_one_of_mem hwf
        (by
          have hr := List.mem_of_find?_eq_some hf
          have hr2 := findByName_some_name hf
          exact hr2 ▸ List.mem_map_of_mem Prod.snd hr)
  | none =>
    have hnm : name ∉ namesOf t := findByName_none_not_mem hf
    refine ⟨freshId t, t ++ [(freshId t, name)], ?_, ?_, ?_, ?_, ?_, ?_⟩
    · simp [insertTag, hf]
    · unfold tableWF namesOf
      rw [List.map_append]
      refine List.Nodup.append hwf (List.nodup_singleton _) ?_
      intro a ha hb
      have hab : a = name := by simpa using hb
      subst hab
      exact hnm ha
    · unfold findByName
      rw [List.find?_append]
      unfold findByName at hf
      rw [hf]
      simp
    · intro m hm
      unfold findByName
      rw [List.find?_append]
      cases hfm : t.find? (fun r => r.2 == m) with
      | some r => simp
      | none =>
        simp only [Option.none_or]
        have hne : ((name == m) : Bool) = false := beq_eq_false_iff_ne.mpr (Ne.symm hm)
        simp [List.find?, hne]
    · unfold countName namesOf
      rw [List.map_append]
      have h0 : (namesOf t).count name = 0 := by
        simp [List.count_eq_zero, hnm]
      simp only [List.count_append]
      unfold namesOf at h0
      simp [h0]
    · intro m hm
      unfold countName namesOf
      rw [List.map_append, List.count_append]
      have : ([(freshId t, name)].map Prod.snd).count m = 0 := by
        simp [List.count_eq_zero, hm]
      simp only [List.map_cons, List.map_nil] at this ⊢
      omega

theorem ingestNames_spec (names : List String) :
    ∀ t : LookupTable, tableWF t →
      ∃ tbl ids, ingestNames t names = .ok (tbl, ids) ∧ tableWF tbl ∧
        ids.length = names.length ∧
        (∀ nm id, (nm, id) ∈ names.zip ids → findByName tbl nm = some (id, nm)) ∧
        (∀ m, countName tbl m = if m ∈ names then 1 else countName t m) ∧
        (∀ m r, findByName t m = some r → findByName tbl m = some r) := by
  induction names with
  | nil =>
    intro t hwf
    exact ⟨t, [], rfl, hwf, rfl, by simp, fun m => by simp, fun m r h => h⟩
  | cons n rest ih =>
    intro t hwf
    obtain ⟨i0, t', hins, hwf', hfind', hstab, hcnt1, hcnts⟩ := insertTag_spec t n hwf
    obtain ⟨tbl, ids, hrun, hwfb, hlen, hzip, hcount, hmono⟩ := ih t' hwf'
    have hpres : ∀ m r, findByName t m = some r → findByName t' m = some r := by
      intro m r hm
      by_cases hmn : m = n
      · subst hmn
        cases hfn : findByName t m with
        | none => rw [hfn] at hm; exact absurd hm (by simp)
        | some r₀ =>
          rw [hfn] at hm
          have : insertTag t m = .ok (r₀.1, t) := by simp [insertTag, hfn]
          rw [this] at hins
          have ht' : t' = t := by
            injection hins with h1
            exact (congrArg Prod.snd h1).symm
          rw [ht', hfn, hm]
      · rw [hstab m hmn]; exact hm
    refine ⟨tbl, i0 :: ids, ?_, hwfb, by simpa using hlen, ?_, ?_, ?_⟩
    · simp only [ingestNames, hins, hrun]
    · intro nm i hmem
      simp only [List.zip_cons_cons, List.mem_cons] at hmem
      rcases hmem with h | h
      · have h1 : nm = n := congrArg Prod.fst h
        have h2 : i = i0 := congrArg Prod.snd h
        subst h1
        subst h2
        exact hmono nm (i, nm) hfind'
      · exact hzip nm i h
    · intro m
      rw [hcount m]
      by_cases hmr : m ∈ rest
      · simp [hmr, List.mem_cons]
      · by_cases hmn : m = n
        · subst hmn
          simp [hmr, hcnt1]
        · simp [hmr, hmn, hcnts m hmn, List.mem_cons]
    · intro m r hm
      exact hmono m r (hpres m r hm)

/-- C8: after ingesting a list of lookup names starting from the empty
table, any two ingestion steps that carried the same name were handed the
same lookup id (so the junction rows written for two games sharing a tag
name reference one row), the table holds exactly one row per ingested
name, and an `insertTag` error — the insert-then-select idiom finding no
row — aborts the remaining ingestion. -/
theorem insertTag_dedup_invariant (names : List String) (tbl : LookupTable)
    (ids : List Nat) (hrun : ingestNames [] names = .ok (tbl, ids)) :
    (∀ nm i j, (nm, i) ∈ names.zip ids → (nm, j) ∈ names.zip ids → i = j) ∧
    (∀ nm ∈ names, countName tbl nm = 1) ∧
    (∀ (t : LookupTable) (n : String) (e : String) (rest : List String),
      insertTag t n = .error e → ingestNames t (n :: rest) = .error e) := by
  obtain ⟨tbl', ids', hrun', hwf, hlen, hzip, hcount, _⟩ :=
    ingestNames_spec names [] (by simp [tableWF, namesOf])
  rw [hrun] at hrun'
  injection hrun' with h1
  have htbl : tbl' = tbl := (congrArg Prod.fst h1).symm
  have hids : ids' = ids := (congrArg Prod.snd h1).symm
  subst htbl
  subst hids
  refine ⟨?_, ?_, ?_⟩
  · intro nm i j hi hj
    have h1 := hzip nm i hi
    have h2 := hzip nm j hj
    rw [h1] at h2
    injection h2 with h3
    exact congrArg Prod.fst h3
  · intro nm hnm
    rw [hcount nm]
    simp [hnm]
  · intro t n e rest he
    simp [ingestNames, he]

/-- C8 (witness): ingesting the names "Proto", "USA", "Proto" from the
empty table assigns the duplicate name the same id both times and leaves
exactly one "Proto" row. -/
theorem insertTag_dedup_invariant_witness :
    (∀ nm i j, (nm, i) ∈ (["Proto", "USA", "Proto"].zip ([1, 2, 1] : List Nat)) →
      (nm, j) ∈ (["Proto", "USA", "Proto"].zip ([1, 2, 1] : List Nat)) → i = j) ∧
    (∀ nm ∈ ["Proto", "USA", "Proto"],
      countName [(1, "Proto"), (2, "USA")] nm = 1) :=
  ⟨(insertTag_dedup_invariant ["Proto", "USA", "Proto"]
      [(1, "Proto"), (2, "USA")] [1, 2, 1] rfl).1,
   (insertTag_dedup_invariant ["Proto", "USA", "Proto"]
      [(1, "Proto"), (2, "USA")] [1, 2, 1] rfl).2.1⟩
